import Mathlib

/-!
Verification of the brute-force VRP solver of `src/api.py` against its
natural-language specification.  The Python data model (`src/input_classes.py`)
and the solver (`brute_force_solve` and its helpers in `src/api.py`) are
shallowly embedded as executable Lean definitions; machine integers are
modelled by `Int` (Python integers are unbounded), Python `None` / absent
values by explicit constructors, the `float` infinity sentinels by explicit
constructors (`PyCapacity.inf`) or by `Option Int` with `none` standing for
the initial `float` infinity of the running minimum.
-/

namespace DRP

/-- Model of the value space of `Vehicle.capacity` in `src/input_classes.py`:
the pydantic field is declared `capacity: Optional[int] = float("inf")`, so a
capacity is either the explicit `None` marker, an explicit integer, or - for a
vehicle constructed without a capacity - the floating-point infinity sentinel
that is the declared default. -/
inductive PyCapacity where
  | unbounded : PyCapacity
  | int : Int → PyCapacity
  | inf : PyCapacity
deriving DecidableEq, Repr, Inhabited

/-- The declared default of the `capacity` field of `Vehicle` in
`src/input_classes.py` (line 9): `float("inf")`, a numeric infinity sentinel. -/
def vehicle_capacity_default : PyCapacity := PyCapacity.inf

/-- Model of `Job` of `src/input_classes.py`, with the field names used by the solver in
`src/api.py` (`location_index` for the location, `delivery` for the demand,
`service` for the service time; `delivery` and `service` default to 0). -/
structure Job where
  id : String
  location_index : Nat
  delivery : Int
  service : Int
deriving DecidableEq, Repr, Inhabited

/-- Model of `Vehicle` of `src/input_classes.py`, with the field name `start_index`
used by `src/api.py` for the start location. -/
structure Vehicle where
  id : String
  start_index : Nat
  capacity : PyCapacity
deriving DecidableEq, Repr, Inhabited

/-- Model of `Route` of `src/input_classes.py`: an ordered list of job identifiers and
the computed duration. -/
structure Route where
  jobs : List String
  delivery_duration : Int
deriving DecidableEq, Repr, Inhabited

/-- Model of `OutputData` of `src/input_classes.py`.  The Python `routes` dictionary is
modelled as an association list in insertion order (Python dictionaries keep
insertion order; updating an existing key keeps its position). -/
structure OutputData where
  total_delivery_duration : Int
  routes : List (String × Route)
deriving DecidableEq, Repr, Inhabited

/-- Matrix access `matrix[i][j]` (total, with default 0; the spec guarantees
indices in bounds upstream, cf. section 6 of the spec). -/
def mget (matrix : List (List Int)) (i j : Nat) : Int :=
  (matrix.getD i []).getD j 0

/-- Model of `compute_route_duration` of `src/api.py` (lines 30-46).  The Python
`services` argument may be `None` or a list; `None` and `[]` behave
identically there (both are falsy in `if services:`), so both are modelled by
`[]`.  The `for i in range(len(job_locs) - 1)` loop is a left fold over
`List.range`. -/
def compute_route_duration (start : Nat) (job_locs : List Nat)
    (matrix : List (List Int)) (services : List Int) : Int :=
  if job_locs.isEmpty then 0
  else
    (List.range (job_locs.length - 1)).foldl
      (fun d i =>
        d + mget matrix (job_locs.getD i 0) (job_locs.getD (i + 1) 0) +
          (if services.isEmpty = false ∧ i + 1 < services.length then
            services.getD (i + 1) 0 else 0))
      (mget matrix start (job_locs.getD 0 0) +
        (if services.isEmpty then 0 else services.getD 0 0))

/-- Model of `is_capacity_feasible` of `src/api.py` (lines 48-56):
`if capacity is None: return True` and otherwise
`sum(job.delivery for job in assigned_jobs) <= capacity`; a comparison of an
integer with the floating-point infinity default is always true. -/
def is_capacity_feasible (assigned_jobs : List Job) (capacity : PyCapacity) : Bool :=
  match capacity with
  | PyCapacity.unbounded => true
  | PyCapacity.int c => decide ((assigned_jobs.map Job.delivery).sum ≤ c)
  | PyCapacity.inf => true

/-- Model of `job_ids = [j.id for j in jobs]` (`src/api.py` line 68). -/
def job_ids (jobs : List Job) : List String := jobs.map Job.id

/-- Model of `job_dict` built by `{j.id: j for j in jobs}` (`src/api.py` line 69): dictionary
lookup; with duplicate identifiers the later entry wins, hence the search on
the reversed list.  Lookup of an absent identifier (never reached by the
solver) gives the default job. -/
def job_dict (jobs : List Job) (i : String) : Job :=
  (jobs.reverse.find? (fun j => j.id = i)).getD default

/-- Insertion into a Python dictionary modelled as an association list:
an existing key keeps its position and gets the new value, a new key is
appended at the end. -/
def dinsert (k : String) (v : Route) : List (String × Route) → List (String × Route)
  | [] => [(k, v)]
  | (k', v') :: rest =>
    if k' = k then (k, v) :: rest else (k', v') :: dinsert k v rest

/-- Dictionary lookup on the association list. -/
def dlookup (k : String) : List (String × Route) → Option Route
  | [] => none
  | (k', v') :: rest => if k' = k then some v' else dlookup k rest

/-- Model of `{v.id: Route(jobs=[], delivery_duration=0) for v in vehicles}`
(`src/api.py` lines 65, 71, 141-143). -/
def empty_routes (vehicles : List Vehicle) : List (String × Route) :=
  vehicles.foldl (fun d v => dinsert v.id (Route.mk [] 0) d) []

/-- All ways of selecting one element of a list together with the remaining
elements in order; the selection order is the position order.  This is the
recursion scheme of `itertools.permutations`. -/
def select {α : Type} : List α → List (α × List α)
  | [] => []
  | x :: xs => (x, xs) :: (select xs).map (fun p => (p.1, x :: p.2))

/-- Fuelled enumeration of all permutations of a list, in the order of
`itertools.permutations` (`src/api.py` line 114): first element chosen by
position, recursively followed by the permutations of the rest. -/
def permsAux {α : Type} : Nat → List α → List (List α)
  | 0, _ => [[]]
  | _, [] => [[]]
  | fuel + 1, l => (select l).flatMap (fun p => (permsAux fuel p.2).map (fun q => p.1 :: q))

/-- Enumeration matching `itertools.permutations` of a list (as lists, in enumeration order). -/
def perms {α : Type} (l : List α) : List (List α) := permsAux l.length l

/-- Model of `perm_locs = [job.location_index for job in perm_jobs]`
(`src/api.py` lines 115-116). -/
def perm_locs (jd : String → Job) (perm : List String) : List Nat :=
  perm.map (fun i => (jd i).location_index)

/-- Model of `perm_services = [job.service for job in perm_jobs]`
(`src/api.py` line 117). -/
def perm_services (jd : String → Job) (perm : List String) : List Int :=
  perm.map (fun i => (jd i).service)

/-- The comparison `duration < current_minimum` of `src/api.py` (lines 126
and 137), where the running minimum starts at `float("inf")` (modelled by
`none`): every value is below infinity. -/
def lt_inf (d : Int) : Option Int → Bool
  | none => true
  | some m => decide (d < m)

/-- The common shape of the two strict-improvement minimum loops of
`brute_force_solve`: walk a list of candidates, `f` gives a candidate a cost
and a payload (or `none` for an infeasible candidate), and the state is
replaced exactly when the cost is strictly below the running minimum - so the
first candidate achieving the final minimum wins. -/
def min_loop {β γ : Type} (f : β → Option (Int × γ)) :
    List β → Option Int × γ → Option Int × γ
  | [], s => s
  | b :: bs, s =>
    match f b with
    | none => min_loop f bs s
    | some (t, r) =>
      if lt_inf t s.1 then min_loop f bs (some t, r) else min_loop f bs s

/-- Duration of a route candidate exactly as `src/api.py` lines 119-124
computes it: `compute_route_duration(vehicle.start_index, perm_locs, matrix,
perm_services)`. -/
def route_cost (jd : String → Job) (matrix : List (List Int)) (v : Vehicle)
    (ord : List String) : Int :=
  compute_route_duration v.start_index (perm_locs jd ord) matrix (perm_services jd ord)

/-- The inner permutation loop of `src/api.py` (lines 111-131): running
minimum `min_route_duration` starting at `float("inf")` and `best_sequence`
starting at `[]`, updated on strict improvement over
`permutations(assigned_job_ids)`. -/
def best_route (jd : String → Job) (matrix : List (List Int)) (v : Vehicle)
    (ids : List String) : Option Int × List String :=
  min_loop (fun p => some (route_cost jd matrix v p, p)) (perms ids) (none, [])

/-- The per-assignment vehicle loop of `src/api.py` (lines 99-135), with the
enumeration index `idx`, the running `total_duration` and the `routes`
dictionary as explicit state.  `none` models `feasible = False` followed by
`break` (the partially built routes are discarded).  The `(none, _)` case of
`best_route` is unreachable for a non-empty job list, where Python would
carry a `float("inf")` total that can never win the outer minimum. -/
def eval_vehicles (jd : String → Job) (matrix : List (List Int))
    (asg : List (List String)) :
    List Vehicle → Nat → Int → List (String × Route) →
      Option (Int × List (String × Route))
  | [], _, total, routes => some (total, routes)
  | v :: rest, idx, total, routes =>
    let ids := asg.getD idx []
    if is_capacity_feasible (ids.map jd) v.capacity then
      if ids.isEmpty then
        eval_vehicles jd matrix asg rest (idx + 1) total
          (dinsert v.id (Route.mk [] 0) routes)
      else
        match best_route jd matrix v ids with
        | (some d, seq) =>
          eval_vehicles jd matrix asg rest (idx + 1) (total + d)
            (dinsert v.id (Route.mk seq d) routes)
        | (none, _) => none
    else none

/-- Model of `assignment[vehicle_idx].append(first_job)` of `src/api.py` line 86:
the job is appended at the end of the list at position `vi`. -/
def append_at (asg : List (List String)) (vi : Nat) (j : String) :
    List (List String) :=
  asg.set vi (asg.getD vi [] ++ [j])

/-- Model of `generate_all_assignments` of `src/api.py` (lines 74-88): for the first
job, every vehicle index is tried (outer loop), and for each the generator
recurses on the remaining jobs (inner loop); the first job is appended to the
chosen vehicle list of each recursively generated assignment. -/
def generate_all_assignments : List String → Nat → List (List (List String))
  | [], n => [List.replicate n []]
  | j :: rest, n =>
    (List.range n).flatMap (fun vi =>
      (generate_all_assignments rest n).map (fun a => append_at a vi j))

/-- Model of `brute_force_solve` of `src/api.py` (lines 58-145).  Empty job list:
immediate return of total 0 and empty routes for every vehicle.  Otherwise
the outer assignment loop is the strict-improvement minimum loop over all
generated assignments, starting from `min_total = float("inf")` (`none`) and
`best_routes` = all-empty routes; if the minimum is still infinity at the end
(`if min_total == float("inf")`), the function returns total 0 with all-empty
routes. -/
def brute_force_solve (vehicles : List Vehicle) (jobs : List Job)
    (matrix : List (List Int)) : OutputData :=
  if jobs.isEmpty then OutputData.mk 0 (empty_routes vehicles)
  else
    let jd := job_dict jobs
    let asgs := generate_all_assignments (job_ids jobs) vehicles.length
    match min_loop (fun a => eval_vehicles jd matrix a vehicles 0 0 []) asgs
        (none, empty_routes vehicles) with
    | (none, _) => OutputData.mk 0 (empty_routes vehicles)
    | (some t, routes) => OutputData.mk t routes

/-! ### Specification-side definitions

These definitions follow the wording of the specification and are compared
with the source-derived definitions above. -/

/-- Sum of the delivery demands of a list of jobs (spec 4.2). -/
def demand_sum (l : List Job) : Int := (l.map Job.delivery).sum

/-- The duration formula of spec 4.1: travel(start -> first) + service(first)
+ the sum over consecutive pairs of travel(job i -> job i+1) + service(job
i+1); 0 for the empty sequence. -/
def route_duration_spec (matrix : List (List Int)) : Nat → List Nat → List Int → Int
  | _, [], _ => 0
  | prev, l :: ls, svcs =>
    mget matrix prev l + svcs.headD 0 + route_duration_spec matrix l ls svcs.tail

/-- Predicate: `parts` is a partition of the job set across the vehicles: one (possibly
empty) list of job identifiers per vehicle, jointly holding every input job
identifier exactly once (spec glossary, "Partition/Assignment"). -/
def PartsOf (vs : List Vehicle) (js : List Job) (parts : List (List String)) : Prop :=
  parts.length = vs.length ∧ parts.flatten.Perm (job_ids js)

/-- Predicate: the part of the partition given to each vehicle satisfies the capacity of that vehicle
(spec glossary, "Feasible"). -/
def PartsFeasible (jd : String → Job) (vs : List Vehicle)
    (parts : List (List String)) : Prop :=
  ∀ k, k < vs.length →
    is_capacity_feasible ((parts.getD k []).map jd) ((vs.getD k default).capacity) = true

/-- Total duration of one ordering choice per vehicle: the sum over vehicles
of the duration of the ordered route of that vehicle. -/
def fleet_cost (jd : String → Job) (matrix : List (List Int)) (vs : List Vehicle)
    (ords : List (List String)) : Int :=
  ((vs.zip ords).map (fun vo => route_cost jd matrix vo.1 vo.2)).sum

/-! ### List utilities -/

theorem getD_set_self {α : Type} (l : List α) (i : Nat) (x d : α)
    (h : i < l.length) : (l.set i x).getD i d = x := by
  simp [List.getD_eq_getElem?_getD, List.getElem?_set_self h]

theorem getD_set_ne {α : Type} (l : List α) (i j : Nat) (x d : α)
    (h : i ≠ j) : (l.set i x).getD j d = l.getD j d := by
  simp [List.getD_eq_getElem?_getD, List.getElem?_set_ne h]

theorem getD_cons_succ {α : Type} (a : α) (l : List α) (i : Nat) (d : α) :
    (a :: l).getD (i + 1) d = l.getD i d := rfl

theorem getD_mem {α : Type} (l : List α) (i : Nat) (d : α) (h : i < l.length) :
    l.getD i d ∈ l := by
  induction l generalizing i with
  | nil => simp at h
  | cons a as ih =>
    cases i with
    | zero => simp [List.getD]
    | succ n =>
      have h' : n < as.length := by simpa using h
      exact List.mem_cons_of_mem a (ih n h')

theorem mem_iff_getD {α : Type} {l : List α} {x : α} (d : α) :
    x ∈ l ↔ ∃ i, i < l.length ∧ l.getD i d = x := by
  constructor
  · intro hx
    induction l with
    | nil => simp at hx
    | cons a as ih =>
      rcases List.mem_cons.mp hx with h | h
      · exact ⟨0, by simp, by simp [List.getD, h]⟩
      · obtain ⟨i, hi, he⟩ := ih h
        exact ⟨i + 1, by simpa using Nat.succ_lt_succ hi, by simpa [List.getD] using he⟩
  · rintro ⟨i, hi, rfl⟩
    exact getD_mem l i d hi

theorem set_split {α : Type} (l : List α) (i : Nat) (x d : α) (h : i < l.length) :
    ∃ t₁ t₂, l = t₁ ++ l.getD i d :: t₂ ∧ t₁.length = i ∧ l.set i x = t₁ ++ x :: t₂ := by
  induction l generalizing i with
  | nil => simp at h
  | cons a as ih =>
    cases i with
    | zero => exact ⟨[], as, by simp [List.getD], rfl, rfl⟩
    | succ n =>
      have h' : n < as.length := by simpa using h
      obtain ⟨t₁, t₂, h1, h2, h3⟩ := ih n h'
      refine ⟨a :: t₁, t₂, ?_, by simp [h2], ?_⟩
      · simpa [List.getD] using congrArg (List.cons a) h1
      · simpa [List.set] using congrArg (List.cons a) h3

theorem getD_map {α β : Type} (f : α → β) (l : List α) (i : Nat) (d : β) (d' : α)
    (h : i < l.length) : (l.map f).getD i d = f (l.getD i d') := by
  induction l generalizing i with
  | nil => simp at h
  | cons a as ih =>
    cases i with
    | zero => simp [List.getD]
    | succ n =>
      have h' : n < as.length := by simpa using h
      simpa [List.getD] using ih n h'

theorem getD_zip {α β : Type} (xs : List α) (ys : List β) (i : Nat)
    (dx : α) (dy : β) (hx : i < xs.length) (hy : i < ys.length) :
    (xs.zip ys).getD i (dx, dy) = (xs.getD i dx, ys.getD i dy) := by
  induction xs generalizing ys i with
  | nil => simp at hx
  | cons a as ih =>
    cases ys with
    | nil => simp at hy
    | cons b bs =>
      cases i with
      | zero => simp [List.getD]
      | succ n =>
        have hx' : n < as.length := by simpa using hx
        have hy' : n < bs.length := by simpa using hy
        simpa [List.getD] using ih bs n hx' hy'

theorem flatten_replicate_nil {α : Type} : ∀ n : Nat, (List.replicate n ([] : List α)).flatten = []
  | 0 => rfl
  | n + 1 => by simp [List.replicate, flatten_replicate_nil n]

theorem getD_replicate {α : Type} (x d : α) {n i : Nat} (h : i < n) :
    (List.replicate n x).getD i d = x := by
  induction n generalizing i with
  | zero => simp at h
  | succ m ih =>
    cases i with
    | zero => simp [List.replicate, List.getD]
    | succ k =>
      have h' : k < m := by omega
      simpa [List.replicate, List.getD] using ih h'

theorem sum_le_sum_of_getD : ∀ (xs ys : List Int), xs.length = ys.length →
    (∀ k, k < xs.length → xs.getD k 0 ≤ ys.getD k 0) → xs.sum ≤ ys.sum := by
  intro xs
  induction xs with
  | nil =>
    intro ys h _
    have : ys = [] := List.eq_nil_of_length_eq_zero h.symm
    simp [this]
  | cons a as ih =>
    intro ys h hle
    cases ys with
    | nil => simp at h
    | cons b bs =>
      have h0 : a ≤ b := by simpa [List.getD] using hle 0 (by simp)
      have hrest : as.sum ≤ bs.sum := by
        refine ih bs (by simpa using h) ?_
        intro k hk
        simpa [List.getD] using hle (k + 1) (by simpa using Nat.succ_lt_succ hk)
      simp only [List.sum_cons]
      omega

theorem flatten_perm_of_getD_perm {α : Type} :
    ∀ (xs ys : List (List α)), xs.length = ys.length →
      (∀ k, k < xs.length → (xs.getD k []).Perm (ys.getD k [])) →
      xs.flatten.Perm ys.flatten := by
  intro xs
  induction xs with
  | nil =>
    intro ys h _
    have : ys = [] := List.eq_nil_of_length_eq_zero h.symm
    simp [this]
  | cons a as ih =>
    intro ys h hp
    cases ys with
    | nil => simp at h
    | cons b bs =>
      have h0 : a.Perm b := by simpa [List.getD] using hp 0 (by simp)
      have hrest : as.flatten.Perm bs.flatten := by
        refine ih bs (by simpa using h) ?_
        intro k hk
        simpa [List.getD] using hp (k + 1) (by simpa using Nat.succ_lt_succ hk)
      simpa using h0.append hrest

/-! ### Permutation enumeration lemmas -/

theorem mem_select {α : Type} : ∀ (l : List α) (a : α) (b : List α),
    (a, b) ∈ select l ↔ ∃ t₁ t₂, l = t₁ ++ a :: t₂ ∧ b = t₁ ++ t₂ := by
  intro l
  induction l with
  | nil =>
    intro a b
    constructor
    · intro h; simp [select] at h
    · rintro ⟨t₁, t₂, h, -⟩; exact absurd h (by simp)
  | cons x xs ih =>
    intro a b
    constructor
    · intro h
      simp only [select, List.mem_cons, List.mem_map, Prod.mk.injEq] at h
      rcases h with ⟨rfl, rfl⟩ | ⟨⟨a', b'⟩, hq, rfl, rfl⟩
      · exact ⟨[], _, rfl, rfl⟩
      · obtain ⟨t₁, t₂, h1, h2⟩ := (ih a' b').mp hq
        exact ⟨x :: t₁, t₂, by simp [h1], by simp [h2]⟩
    · rintro ⟨t₁, t₂, h1, rfl⟩
      cases t₁ with
      | nil =>
        simp only [List.nil_append] at h1
        obtain ⟨rfl, rfl⟩ : x = a ∧ xs = t₂ := by
          constructor <;> [exact (List.cons.injEq ..).mp h1 |>.1;
            exact (List.cons.injEq ..).mp h1 |>.2]
        exact List.mem_cons_self _ _
      | cons z t₁' =>
        obtain ⟨rfl, h1'⟩ : x = z ∧ xs = t₁' ++ a :: t₂ := by
          constructor <;> [exact (List.cons.injEq ..).mp h1 |>.1;
            exact (List.cons.injEq ..).mp h1 |>.2]
        have hmem : (a, t₁' ++ t₂) ∈ select xs := (ih a (t₁' ++ t₂)).mpr ⟨t₁', t₂, h1', rfl⟩
        simp only [select, List.mem_cons, List.mem_map]
        exact Or.inr ⟨(a, t₁' ++ t₂), hmem, rfl⟩

theorem select_length {α : Type} {l : List α} {a : α} {b : List α}
    (h : (a, b) ∈ select l) : b.length + 1 = l.length := by
  obtain ⟨t₁, t₂, rfl, rfl⟩ := (mem_select l a b).mp h
  simp
  omega

theorem mem_permsAux {α : Type} :
    ∀ (fuel : Nat) (l : List α), l.length ≤ fuel →
      ∀ p : List α, p ∈ permsAux fuel l ↔ p.Perm l := by
  intro fuel
  induction fuel with
  | zero =>
    intro l hl p
    have hnil : l = [] := List.eq_nil_of_length_eq_zero (Nat.le_zero.mp hl)
    subst hnil
    simp [permsAux, List.perm_nil]
  | succ fuel ih =>
    intro l hl p
    cases l with
    | nil => simp [permsAux, List.perm_nil]
    | cons x xs =>
      constructor
      · intro hp
        simp only [permsAux, List.mem_flatMap, List.mem_map] at hp
        obtain ⟨⟨a, b⟩, hsel, q, hq, rfl⟩ := hp
        obtain ⟨t₁, t₂, hsplit, hb⟩ := (mem_select _ a b).mp hsel
        have hblen : b.length + 1 = (x :: xs).length := select_length hsel
        have hq' : q.Perm b := (ih b (by simp at hblen hl; omega) q).mp hq
        subst hb
        rw [hsplit]
        exact (hq'.cons a).trans List.perm_middle.symm
      · intro hp
        cases p with
        | nil =>
          have : ([] : List α) = x :: xs := hp.nil_eq
          exact absurd this (by simp)
        | cons y p' =>
          have hy : y ∈ x :: xs := hp.mem_iff.mp (List.mem_cons_self y p')
          obtain ⟨t₁, t₂, hsplit⟩ := List.append_of_mem hy
          have hsel : (y, t₁ ++ t₂) ∈ select (x :: xs) :=
            (mem_select _ y (t₁ ++ t₂)).mpr ⟨t₁, t₂, hsplit, rfl⟩
          have hlen : (t₁ ++ t₂).length + 1 = (x :: xs).length := select_length hsel
          have hp' : p'.Perm (t₁ ++ t₂) := by
            have h1 : (y :: p').Perm (y :: (t₁ ++ t₂)) := by
              rw [hsplit] at hp
              exact hp.trans List.perm_middle
            exact h1.cons_inv
          have hq : p' ∈ permsAux fuel (t₁ ++ t₂) :=
            (ih _ (by simp only [List.length_append, List.length_cons] at hlen hl ⊢; omega) p').mpr hp'
          simp only [permsAux, List.mem_flatMap, List.mem_map]
          exact ⟨(y, t₁ ++ t₂), hsel, p', hq, rfl⟩

theorem mem_perms {α : Type} {l p : List α} : p ∈ perms l ↔ p.Perm l :=
  mem_permsAux l.length l (Nat.le_refl _) p

theorem perms_ne_nil {α : Type} (l : List α) : perms l ≠ [] := by
  intro h
  have hmem := (mem_perms).mpr (List.Perm.refl l)
  rw [h] at hmem
  exact absurd hmem (List.not_mem_nil l)

/-! ### Strict-improvement minimum loop lemmas -/

/-- Order on running minima, `none` standing for the initial infinity. -/
def ole : Option Int → Option Int → Prop
  | _, none => True
  | none, some _ => False
  | some a, some b => a ≤ b

theorem ole_refl : ∀ x : Option Int, ole x x
  | none => trivial
  | some a => Int.le_refl a

theorem ole_trans : ∀ {x y z : Option Int}, ole x y → ole y z → ole x z := by
  intro x y z h1 h2
  cases z with
  | none => cases x <;> trivial
  | some c =>
    cases y with
    | none => exact absurd h2 (by simp [ole])
    | some b =>
      cases x with
      | none => exact absurd h1 (by simp [ole])
      | some a => exact Int.le_trans h1 h2

theorem lt_inf_ole {t : Int} {s : Option Int} (h : lt_inf t s = true) :
    ole (some t) s := by
  cases s with
  | none => trivial
  | some m => exact Int.le_of_lt (by simpa [lt_inf] using h)

theorem not_lt_inf_ole {t : Int} {s : Option Int} (h : lt_inf t s = false) :
    ole s (some t) := by
  cases s with
  | none => simp [lt_inf] at h
  | some m =>
    have : ¬ t < m := by simpa [lt_inf] using h
    exact Int.not_lt.mp this

theorem min_loop_cons_none {β γ : Type} (f : β → Option (Int × γ)) (b : β)
    (bs : List β) (s : Option Int × γ) (h : f b = none) :
    min_loop f (b :: bs) s = min_loop f bs s := by
  simp [min_loop, h]

theorem min_loop_cons_improve {β γ : Type} (f : β → Option (Int × γ)) (b : β)
    (bs : List β) (s : Option Int × γ) (t : Int) (r : γ)
    (h : f b = some (t, r)) (hlt : lt_inf t s.1 = true) :
    min_loop f (b :: bs) s = min_loop f bs (some t, r) := by
  simp [min_loop, h, hlt]

theorem min_loop_cons_keep {β γ : Type} (f : β → Option (Int × γ)) (b : β)
    (bs : List β) (s : Option Int × γ) (t : Int) (r : γ)
    (h : f b = some (t, r)) (hlt : lt_inf t s.1 = false) :
    min_loop f (b :: bs) s = min_loop f bs s := by
  simp [min_loop, h, hlt]

theorem min_loop_all_none {β γ : Type} (f : β → Option (Int × γ)) :
    ∀ (L : List β) (s : Option Int × γ), (∀ b ∈ L, f b = none) →
      min_loop f L s = s := by
  intro L
  induction L with
  | nil => intro s _; rfl
  | cons b bs ih =>
    intro s h
    rw [min_loop_cons_none f b bs s (h b (List.mem_cons_self b bs))]
    exact ih s (fun c hc => h c (List.mem_cons_of_mem b hc))

theorem min_loop_attain {β γ : Type} (f : β → Option (Int × γ)) :
    ∀ (L : List β) (s : Option Int × γ),
      min_loop f L s = s ∨
      ∃ b, b ∈ L ∧ ∃ t r, f b = some (t, r) ∧ min_loop f L s = (some t, r) := by
  intro L
  induction L with
  | nil => intro s; exact Or.inl rfl
  | cons b bs ih =>
    intro s
    cases hf : f b with
    | none =>
      rw [min_loop_cons_none f b bs s hf]
      rcases ih s with h | ⟨c, hc, t, r, hfc, he⟩
      · exact Or.inl h
      · exact Or.inr ⟨c, List.mem_cons_of_mem b hc, t, r, hfc, he⟩
    | some tr =>
      obtain ⟨t, r⟩ := tr
      cases hlt : lt_inf t s.1 with
      | true =>
        rw [min_loop_cons_improve f b bs s t r hf hlt]
        rcases ih (some t, r) with h | ⟨c, hc, t', r', hfc, he⟩
        · exact Or.inr ⟨b, List.mem_cons_self b bs, t, r, hf, h⟩
        · exact Or.inr ⟨c, List.mem_cons_of_mem b hc, t', r', hfc, he⟩
      | false =>
        rw [min_loop_cons_keep f b bs s t r hf hlt]
        rcases ih s with h | ⟨c, hc, t', r', hfc, he⟩
        · exact Or.inl h
        · exact Or.inr ⟨c, List.mem_cons_of_mem b hc, t', r', hfc, he⟩

theorem min_loop_mono {β γ : Type} (f : β → Option (Int × γ)) :
    ∀ (L : List β) (s : Option Int × γ), ole (min_loop f L s).1 s.1 := by
  intro L
  induction L with
  | nil => intro s; exact ole_refl s.1
  | cons b bs ih =>
    intro s
    cases hf : f b with
    | none => rw [min_loop_cons_none f b bs s hf]; exact ih s
    | some tr =>
      obtain ⟨t, r⟩ := tr
      cases hlt : lt_inf t s.1 with
      | true =>
        rw [min_loop_cons_improve f b bs s t r hf hlt]
        exact ole_trans (ih (some t, r)) (lt_inf_ole hlt)
      | false =>
        rw [min_loop_cons_keep f b bs s t r hf hlt]
        exact ih s

theorem min_loop_le {β γ : Type} (f : β → Option (Int × γ)) :
    ∀ (L : List β) (s : Option Int × γ) (b : β) (t : Int) (r : γ),
      b ∈ L → f b = some (t, r) → ole (min_loop f L s).1 (some t) := by
  intro L
  induction L with
  | nil => intro s b t r hb; simp at hb
  | cons c cs ih =>
    intro s b t r hb hf
    rcases List.mem_cons.mp hb with rfl | hb
    · cases hlt : lt_inf t s.1 with
      | true =>
        rw [min_loop_cons_improve f b cs s t r hf hlt]
        exact min_loop_mono f cs (some t, r)
      | false =>
        rw [min_loop_cons_keep f b cs s t r hf hlt]
        exact ole_trans (min_loop_mono f cs s) (not_lt_inf_ole hlt)
    · cases hfc : f c with
      | none =>
        rw [min_loop_cons_none f c cs s hfc]
        exact ih s b t r hb hf
      | some tr =>
        obtain ⟨t', r'⟩ := tr
        cases hlt : lt_inf t' s.1 with
        | true =>
          rw [min_loop_cons_improve f c cs s t' r' hfc hlt]
          exact ih (some t', r') b t r hb hf
        | false =>
          rw [min_loop_cons_keep f c cs s t' r' hfc hlt]
          exact ih s b t r hb hf

theorem tmin_some {β : Type} (g : β → Int) :
    ∀ (L : List β) (m : Int) (b : β),
      ∃ d c, min_loop (fun p => some (g p, p)) L (some m, b) = (some d, c) ∧
        d ≤ m ∧ (∀ p ∈ L, d ≤ g p) ∧
        ((d = m ∧ c = b ∧ ∀ p ∈ L, ¬ g p < m) ∨
         (d < m ∧ g c = d ∧ ∃ t₁ t₂, L = t₁ ++ c :: t₂ ∧ ∀ p ∈ t₁, d < g p)) := by
  intro L
  induction L with
  | nil =>
    intro m b
    exact ⟨m, b, rfl, Int.le_refl m, by simp, Or.inl ⟨rfl, rfl, by simp⟩⟩
  | cons q qs ih =>
    intro m b
    by_cases hq : g q < m
    · have hlt : lt_inf (g q) (some m, b).1 = true := by simpa [lt_inf] using hq
      rw [min_loop_cons_improve _ q qs _ (g q) q rfl hlt]
      obtain ⟨d, c, heq, hdm, hmin, hcase⟩ := ih (g q) q
      refine ⟨d, c, heq, by omega, ?_, ?_⟩
      · intro p hp
        rcases List.mem_cons.mp hp with rfl | hp
        · omega
        · exact hmin p hp
      · rcases hcase with ⟨rfl, rfl, hall⟩ | ⟨hdlt, hgc, t₁, t₂, hsplit, hpre⟩
        · exact Or.inr ⟨hq, rfl, [], qs, rfl, by simp⟩
        · refine Or.inr ⟨by omega, hgc, q :: t₁, t₂, by rw [hsplit]; rfl, ?_⟩
          intro p hp
          rcases List.mem_cons.mp hp with rfl | hp
          · omega
          · exact hpre p hp
    · have hlt : lt_inf (g q) (some m, b).1 = false := by
        simp only [lt_inf]
        simpa using hq
      rw [min_loop_cons_keep _ q qs _ (g q) q rfl hlt]
      obtain ⟨d, c, heq, hdm, hmin, hcase⟩ := ih m b
      refine ⟨d, c, heq, hdm, ?_, ?_⟩
      · intro p hp
        rcases List.mem_cons.mp hp with rfl | hp
        · omega
        · exact hmin p hp
      · rcases hcase with ⟨rfl, rfl, hall⟩ | ⟨hdlt, hgc, t₁, t₂, hsplit, hpre⟩
        · refine Or.inl ⟨rfl, rfl, ?_⟩
          intro p hp
          rcases List.mem_cons.mp hp with rfl | hp
          · exact hq
          · exact hall p hp
        · refine Or.inr ⟨hdlt, hgc, q :: t₁, t₂, by rw [hsplit]; rfl, ?_⟩
          intro p hp
          rcases List.mem_cons.mp hp with rfl | hp
          · omega
          · exact hpre p hp

theorem best_route_char (jd : String → Job) (matrix : List (List Int))
    (v : Vehicle) (ids : List String) :
    ∃ d seq t₁ t₂,
      best_route jd matrix v ids = (some d, seq) ∧
      perms ids = t₁ ++ seq :: t₂ ∧
      d = route_cost jd matrix v seq ∧
      (∀ p ∈ perms ids, d ≤ route_cost jd matrix v p) ∧
      (∀ p ∈ t₁, d < route_cost jd matrix v p) := by
  cases hp : perms ids with
  | nil => exact absurd hp (perms_ne_nil ids)
  | cons q qs =>
    have hstep : best_route jd matrix v ids =
        min_loop (fun p => some (route_cost jd matrix v p, p)) qs
          (some (route_cost jd matrix v q), q) := by
      rw [best_route, hp]
      exact min_loop_cons_improve _ q qs (none, []) (route_cost jd matrix v q) q rfl rfl
    obtain ⟨d, c, heq, hdm, hmin, hcase⟩ := tmin_some (route_cost jd matrix v) qs
      (route_cost jd matrix v q) q
    rcases hcase with ⟨hdq, rfl, hall⟩ | ⟨hdlt, hgc, t₁, t₂, hsplit, hpre⟩
    · refine ⟨d, c, [], qs, by rw [hstep, heq], by simp, by omega, ?_, by simp⟩
      intro p hmem
      rcases List.mem_cons.mp hmem with rfl | hmem
      · omega
      · exact hmin p hmem
    · refine ⟨d, c, q :: t₁, t₂, by rw [hstep, heq], by rw [hsplit]; rfl, by omega, ?_, ?_⟩
      · intro p hmem
        rcases List.mem_cons.mp hmem with rfl | hmem
        · omega
        · exact hmin p hmem
      · intro p hmem
        rcases List.mem_cons.mp hmem with rfl | hmem
        · omega
        · exact hpre p hmem

/-! ### Dictionary (association list) lemmas -/

def keys (d : List (String × Route)) : List String := d.map Prod.fst

theorem keys_nil : keys [] = [] := rfl

theorem keys_cons (p : String × Route) (d : List (String × Route)) :
    keys (p :: d) = p.1 :: keys d := rfl

theorem mem_dinsert (k : String) (v : Route) :
    ∀ (d : List (String × Route)) (p : String × Route),
      p ∈ dinsert k v d → p = (k, v) ∨ p ∈ d := by
  intro d
  induction d with
  | nil => intro p hp; simpa [dinsert] using hp
  | cons q rest ih =>
    intro p hp
    obtain ⟨k', v'⟩ := q
    by_cases hk : k' = k
    · simp only [dinsert, if_pos hk, List.mem_cons] at hp
      rcases hp with rfl | hp
      · exact Or.inl rfl
      · exact Or.inr (List.mem_cons_of_mem _ hp)
    · simp only [dinsert, if_neg hk, List.mem_cons] at hp
      rcases hp with rfl | hp
      · exact Or.inr (List.mem_cons_self _ _)
      · rcases ih p hp with h | h
        · exact Or.inl h
        · exact Or.inr (List.mem_cons_of_mem _ h)

theorem keys_dinsert (k : String) (v : Route) :
    ∀ (d : List (String × Route)) (s : String),
      s ∈ keys (dinsert k v d) ↔ s = k ∨ s ∈ keys d := by
  intro d
  induction d with
  | nil => intro s; simp [dinsert, keys]
  | cons q rest ih =>
    intro s
    obtain ⟨k', v'⟩ := q
    by_cases hk : k' = k
    · simp only [dinsert, if_pos hk, keys_cons, List.mem_cons]
      rw [hk]
      tauto
    · simp only [dinsert, if_neg hk, keys_cons, List.mem_cons, ih]
      tauto

theorem keys_dinsert_nodup (k : String) (v : Route) :
    ∀ d : List (String × Route), (keys d).Nodup → (keys (dinsert k v d)).Nodup := by
  intro d
  induction d with
  | nil => intro _; simp [dinsert, keys]
  | cons q rest ih =>
    intro hnd
    obtain ⟨k', v'⟩ := q
    rw [keys_cons, List.nodup_cons] at hnd
    obtain ⟨hk', hrest⟩ := hnd
    by_cases hk : k' = k
    · simp only [dinsert, if_pos hk, keys_cons, List.nodup_cons]
      exact ⟨hk ▸ hk', hrest⟩
    · simp only [dinsert, if_neg hk, keys_cons, List.nodup_cons]
      refine ⟨?_, ih hrest⟩
      intro hmem
      rcases (keys_dinsert k v rest k').mp hmem with rfl | hmem'
      · exact hk rfl
      · exact hk' hmem'

theorem dinsert_not_mem (k : String) (v : Route) :
    ∀ d : List (String × Route), k ∉ keys d → dinsert k v d = d ++ [(k, v)] := by
  intro d
  induction d with
  | nil => intro _; rfl
  | cons q rest ih =>
    intro h
    obtain ⟨k', v'⟩ := q
    rw [keys_cons] at h
    have hk : ¬ k' = k := by
      intro he
      exact h (by simp [he])
    have hrest : k ∉ keys rest := fun hm => h (List.mem_cons_of_mem _ hm)
    simp [dinsert, hk, ih hrest]

/-- The accumulation of `routes[vehicle.id] = Route(...)` insertions over a
list of vehicle-route pairs. -/
def dfold (d : List (String × Route)) (pairs : List (Vehicle × Route)) :
    List (String × Route) :=
  pairs.foldl (fun acc p => dinsert p.1.id p.2 acc) d

theorem dfold_cons (d : List (String × Route)) (p : Vehicle × Route)
    (pairs : List (Vehicle × Route)) :
    dfold d (p :: pairs) = dfold (dinsert p.1.id p.2 d) pairs := rfl

theorem keys_dfold : ∀ (pairs : List (Vehicle × Route)) (d : List (String × Route))
    (s : String),
    s ∈ keys (dfold d pairs) ↔ s ∈ keys d ∨ s ∈ pairs.map (fun p => p.1.id) := by
  intro pairs
  induction pairs with
  | nil => intro d s; simp [dfold]
  | cons p ps ih =>
    intro d s
    rw [dfold_cons, ih, keys_dinsert]
    simp only [List.map_cons, List.mem_cons]
    tauto

theorem keys_dfold_nodup : ∀ (pairs : List (Vehicle × Route))
    (d : List (String × Route)), (keys d).Nodup → (keys (dfold d pairs)).Nodup := by
  intro pairs
  induction pairs with
  | nil => intro d h; exact h
  | cons p ps ih =>
    intro d h
    rw [dfold_cons]
    exact ih _ (keys_dinsert_nodup _ _ d h)

theorem dfold_disjoint : ∀ (pairs : List (Vehicle × Route)) (d : List (String × Route)),
    (∀ p ∈ pairs, p.1.id ∉ keys d) → (pairs.map (fun p => p.1.id)).Nodup →
    dfold d pairs = d ++ pairs.map (fun p => (p.1.id, p.2)) := by
  intro pairs
  induction pairs with
  | nil => intro d _ _; simp [dfold]
  | cons p ps ih =>
    intro d hdisj hnd
    rw [List.map_cons, List.nodup_cons] at hnd
    obtain ⟨hh, ht⟩ := hnd
    rw [dfold_cons, dinsert_not_mem p.1.id p.2 d (hdisj p (List.mem_cons_self p ps)), ih _ ?_ ht]
    · simp
    · intro q hq hmem
      have hmem' : q.1.id ∈ keys d ++ [p.1.id] := by
        simpa [keys, List.map_append] using hmem
      rcases List.mem_append.mp hmem' with h' | h'
      · exact hdisj q (List.mem_cons_of_mem p hq) h'
      · have hqp : q.1.id = p.1.id := by simpa using h'
        exact hh (hqp ▸ List.mem_map_of_mem (fun r => r.1.id) hq)

theorem dfold_values : ∀ (pairs : List (Vehicle × Route)) (d : List (String × Route))
    (rt : Route), (∀ q ∈ d, q.2 = rt) → (∀ p ∈ pairs, p.2 = rt) →
    ∀ q ∈ dfold d pairs, q.2 = rt := by
  intro pairs
  induction pairs with
  | nil => intro d rt hd _ q hq; exact hd q hq
  | cons p ps ih =>
    intro d rt hd hp q hq
    rw [dfold_cons] at hq
    refine ih _ rt ?_ (fun e he => hp e (List.mem_cons_of_mem p he)) q hq
    intro e he
    rcases mem_dinsert _ _ d e he with rfl | he'
    · exact hp p (List.mem_cons_self p ps)
    · exact hd e he'

theorem dlookup_eq_some_of_mem_keys : ∀ (d : List (String × Route)) (s : String),
    s ∈ keys d → ∃ r, dlookup s d = some r ∧ (s, r) ∈ d := by
  intro d
  induction d with
  | nil => intro s hs; simp [keys] at hs
  | cons q rest ih =>
    intro s hs
    obtain ⟨k', v'⟩ := q
    by_cases hk : k' = s
    · subst hk
      exact ⟨v', by simp [dlookup], by simp⟩
    · have hs' : s ∈ keys rest := by
        rw [keys_cons] at hs
        rcases List.mem_cons.mp hs with h | h
        · exact absurd h.symm hk
        · exact h
      obtain ⟨r, h1, h2⟩ := ih s hs'
      exact ⟨r, by simp [dlookup, hk, h1], List.mem_cons_of_mem _ h2⟩

theorem dlookup_assoc_nodup : ∀ (pairs : List (Vehicle × Route)),
    (pairs.map (fun p => p.1.id)).Nodup →
    ∀ k, k < pairs.length →
      dlookup ((pairs.getD k default).1.id) (pairs.map (fun p => (p.1.id, p.2))) =
        some (pairs.getD k default).2 := by
  intro pairs
  induction pairs with
  | nil => intro _ k hk; simp at hk
  | cons p ps ih =>
    intro hnd k hk
    rw [List.map_cons, List.nodup_cons] at hnd
    obtain ⟨hh, ht⟩ := hnd
    cases k with
    | zero => simp [dlookup, List.getD]
    | succ n =>
      have hn : n < ps.length := by simpa using hk
      have hne : ¬ p.1.id = ((ps.getD n default).1.id) := by
        intro he
        exact hh (he ▸ List.mem_map_of_mem (fun q => q.1.id) (getD_mem ps n default hn))
      rw [List.map_cons]
      rw [getD_cons_succ]
      simp only [dlookup, if_neg hne]
      exact ih ht n hn

theorem empty_routes_eq_dfold (vs : List Vehicle) :
    empty_routes vs = dfold [] (vs.map (fun v => (v, Route.mk [] 0))) := by
  simp [empty_routes, dfold, List.foldl_map]

/-! ### Assignment enumeration lemmas -/

theorem append_at_length (asg : List (List String)) (vi : Nat) (j : String) :
    (append_at asg vi j).length = asg.length := by
  simp [append_at]

theorem append_at_flatten_perm (asg : List (List String)) (vi : Nat) (j : String)
    (h : vi < asg.length) :
    (append_at asg vi j).flatten.Perm (j :: asg.flatten) := by
  obtain ⟨t₁, t₂, h1, _, h3⟩ := set_split asg vi (asg.getD vi [] ++ [j]) [] h
  rw [append_at, h3]
  conv_rhs => rw [h1]
  have hp := @List.perm_middle _ j (t₁.flatten ++ asg.getD vi []) t₂.flatten
  simp only [List.flatten_append, List.flatten_cons]
  simpa [List.append_assoc] using hp

theorem generate_sound : ∀ (ids : List String) (n : Nat) (asg : List (List String)),
    asg ∈ generate_all_assignments ids n →
    asg.length = n ∧ asg.flatten.Perm ids := by
  intro ids
  induction ids with
  | nil =>
    intro n asg h
    simp only [generate_all_assignments, List.mem_singleton] at h
    subst h
    exact ⟨by simp, by simp [flatten_replicate_nil]⟩
  | cons j rest ih =>
    intro n asg h
    simp only [generate_all_assignments, List.mem_flatMap, List.mem_map,
      List.mem_range] at h
    obtain ⟨vi, hvi, a, ha, rfl⟩ := h
    obtain ⟨hlen, hperm⟩ := ih n a ha
    refine ⟨by simp [append_at_length, hlen], ?_⟩
    have h1 := append_at_flatten_perm a vi j (by omega)
    exact h1.trans (hperm.cons j)

theorem generate_complete : ∀ (ids : List String) (n : Nat) (parts : List (List String)),
    parts.length = n → parts.flatten.Perm ids →
    ∃ asg, asg ∈ generate_all_assignments ids n ∧ asg.length = n ∧
      ∀ k, k < n → (asg.getD k []).Perm (parts.getD k []) := by
  intro ids
  induction ids with
  | nil =>
    intro n parts hlen hperm
    refine ⟨List.replicate n [], by simp [generate_all_assignments], by simp, ?_⟩
    intro k hk
    have hflat : parts.flatten = [] := List.perm_nil.mp hperm
    have hpart : parts.getD k [] = [] :=
      List.flatten_eq_nil_iff.mp hflat _ (getD_mem parts k [] (by omega))
    have h1 : (List.replicate n ([] : List String)).getD k [] = [] :=
      getD_replicate [] [] hk
    rw [h1, hpart]
  | cons j rest ih =>
    intro n parts hlen hperm
    have hjmem : j ∈ parts.flatten := hperm.mem_iff.mpr (List.mem_cons_self j rest)
    obtain ⟨p, hp, hjp⟩ := List.mem_flatten.mp hjmem
    obtain ⟨i, hi, hgi⟩ := (mem_iff_getD ([] : List String)).mp hp
    obtain ⟨t₁, t₂, hsplit, _, hset⟩ := set_split parts i (p.erase j) [] hi
    rw [hgi] at hsplit
    have hperm' : (parts.set i (p.erase j)).flatten.Perm rest := by
      rw [hset]
      have hpj : p.Perm (j :: p.erase j) := List.perm_cons_erase hjp
      have h2 : parts.flatten.Perm (j :: (t₁ ++ p.erase j :: t₂).flatten) := by
        conv_lhs => rw [hsplit]
        simp only [List.flatten_append, List.flatten_cons]
        have s1 : (t₁.flatten ++ (p ++ t₂.flatten)).Perm
            (t₁.flatten ++ ((j :: p.erase j) ++ t₂.flatten)) :=
          List.Perm.append_left _ (hpj.append_right _)
        have s2 : t₁.flatten ++ ((j :: p.erase j) ++ t₂.flatten) =
            t₁.flatten ++ j :: (p.erase j ++ t₂.flatten) := by simp
        have s3 : (t₁.flatten ++ j :: (p.erase j ++ t₂.flatten)).Perm
            (j :: (t₁.flatten ++ (p.erase j ++ t₂.flatten))) := List.perm_middle
        exact s1.trans (s2.symm ▸ s3)
      exact (h2.symm.trans hperm).cons_inv
    have hlen' : (parts.set i (p.erase j)).length = n := by simp [hlen]
    obtain ⟨asg', hmem', hlen'', hper⟩ := ih n _ hlen' hperm'
    refine ⟨append_at asg' i j, ?_, by simp [append_at_length, hlen''], ?_⟩
    · simp only [generate_all_assignments, List.mem_flatMap, List.mem_map,
        List.mem_range]
      exact ⟨i, by omega, asg', hmem', rfl⟩
    · intro k hk
      by_cases hik : k = i
      · subst hik
        rw [append_at, getD_set_self asg' k _ [] (by omega)]
        have h3 : (asg'.getD k []).Perm ((parts.set k (p.erase j)).getD k []) := hper k hk
        rw [getD_set_self parts k _ [] (by omega)] at h3
        rw [hgi]
        have c1 : (asg'.getD k [] ++ [j]).Perm (j :: asg'.getD k []) :=
          List.perm_append_singleton j _
        have c2 : (j :: asg'.getD k []).Perm (j :: p.erase j) := h3.cons j
        have c3 : (j :: p.erase j).Perm p := (List.perm_cons_erase hjp).symm
        exact (c1.trans c2).trans c3
      · rw [append_at, getD_set_ne asg' i k _ [] (fun he => hik he.symm)]
        have h3 := hper k hk
        rw [getD_set_ne parts i k _ [] (fun he => hik he.symm)] at h3
        exact h3

/-- The capacity check only depends on the multiset of assigned jobs. -/
theorem is_capacity_feasible_perm (jd : String → Job) {l₁ l₂ : List String}
    (h : l₁.Perm l₂) (c : PyCapacity) :
    is_capacity_feasible (l₁.map jd) c = is_capacity_feasible (l₂.map jd) c := by
  cases c with
  | unbounded => rfl
  | inf => rfl
  | int c =>
    have hs : ((l₁.map jd).map Job.delivery).sum = ((l₂.map jd).map Job.delivery).sum :=
      List.Perm.sum_eq ((h.map jd).map Job.delivery)
    simp only [List.map_map] at hs
    simp [is_capacity_feasible, hs]

theorem demand_sum_perm (jd : String → Job) {l₁ l₂ : List String} (h : l₁.Perm l₂) :
    demand_sum (l₁.map jd) = demand_sum (l₂.map jd) :=
  List.Perm.sum_eq ((h.map jd).map Job.delivery)

/-! ### Per-assignment evaluation lemmas -/

theorem eval_cons_capfail (jd : String → Job) (matrix : List (List Int))
    (asg : List (List String)) (v : Vehicle) (rest : List Vehicle) (idx : Nat)
    (total : Int) (routes : List (String × Route))
    (h : is_capacity_feasible ((asg.getD idx []).map jd) v.capacity = false) :
    eval_vehicles jd matrix asg (v :: rest) idx total routes = none := by
  simp only [eval_vehicles]
  rw [h]
  simp

theorem eval_cons_empty (jd : String → Job) (matrix : List (List Int))
    (asg : List (List String)) (v : Vehicle) (rest : List Vehicle) (idx : Nat)
    (total : Int) (routes : List (String × Route))
    (hcap : is_capacity_feasible ((asg.getD idx []).map jd) v.capacity = true)
    (hempty : asg.getD idx [] = []) :
    eval_vehicles jd matrix asg (v :: rest) idx total routes =
      eval_vehicles jd matrix asg rest (idx + 1) total
        (dinsert v.id (Route.mk [] 0) routes) := by
  simp only [eval_vehicles]
  rw [hcap, hempty]
  simp

theorem eval_cons_best (jd : String → Job) (matrix : List (List Int))
    (asg : List (List String)) (v : Vehicle) (rest : List Vehicle) (idx : Nat)
    (total : Int) (routes : List (String × Route)) (d : Int) (seq : List String)
    (hcap : is_capacity_feasible ((asg.getD idx []).map jd) v.capacity = true)
    (hne : asg.getD idx [] ≠ [])
    (hbr : best_route jd matrix v (asg.getD idx []) = (some d, seq)) :
    eval_vehicles jd matrix asg (v :: rest) idx total routes =
      eval_vehicles jd matrix asg rest (idx + 1) (total + d)
        (dinsert v.id (Route.mk seq d) routes) := by
  simp only [eval_vehicles]
  rw [hcap, List.isEmpty_eq_false.mpr hne, hbr]
  simp

theorem eval_vehicles_char (jd : String → Job) (matrix : List (List Int))
    (asg : List (List String)) :
    ∀ (vsl : List Vehicle) (idx : Nat) (total : Int) (routes : List (String × Route))
      (t : Int) (r : List (String × Route)),
      eval_vehicles jd matrix asg vsl idx total routes = some (t, r) →
      ∃ rts : List Route,
        rts.length = vsl.length ∧
        t = total + (rts.map Route.delivery_duration).sum ∧
        r = dfold routes (vsl.zip rts) ∧
        ∀ k, k < vsl.length →
          is_capacity_feasible ((asg.getD (idx + k) []).map jd)
            ((vsl.getD k default).capacity) = true ∧
          ((asg.getD (idx + k) [] = [] ∧ rts.getD k default = Route.mk [] 0) ∨
           (asg.getD (idx + k) [] ≠ [] ∧
             ((rts.getD k default).jobs).Perm (asg.getD (idx + k) []) ∧
             (rts.getD k default).delivery_duration =
               route_cost jd matrix (vsl.getD k default) ((rts.getD k default).jobs) ∧
             ∀ q ∈ perms (asg.getD (idx + k) []),
               (rts.getD k default).delivery_duration ≤
                 route_cost jd matrix (vsl.getD k default) q)) := by
  intro vsl
  induction vsl with
  | nil =>
    intro idx total routes t r h
    simp only [eval_vehicles, Option.some.injEq, Prod.mk.injEq] at h
    obtain ⟨rfl, rfl⟩ := h
    exact ⟨[], rfl, by simp, by simp [dfold], by simp⟩
  | cons v rest ih =>
    intro idx total routes t r h
    cases hcap : is_capacity_feasible ((asg.getD idx []).map jd) v.capacity with
    | false =>
      rw [eval_cons_capfail jd matrix asg v rest idx total routes hcap] at h
      exact Option.noConfusion h
    | true =>
      by_cases hemp : asg.getD idx [] = []
      · rw [eval_cons_empty jd matrix asg v rest idx total routes hcap hemp] at h
        obtain ⟨rts', hlen, ht, hr, hk⟩ := ih (idx + 1) total _ t r h
        refine ⟨Route.mk [] 0 :: rts', by simp [hlen], ?_, ?_, ?_⟩
        · simp only [List.map_cons, List.sum_cons] at ht ⊢
          omega
        · rw [List.zip_cons_cons, dfold_cons]
          exact hr
        · intro k hk'
          cases k with
          | zero => exact ⟨hcap, Or.inl ⟨hemp, rfl⟩⟩
          | succ m =>
            have hm : m < rest.length := by simpa using hk'
            have heq : idx + (m + 1) = (idx + 1) + m := by omega
            rw [heq, getD_cons_succ, getD_cons_succ]
            exact hk m hm
      · obtain ⟨d, seq, t₁, t₂, hbr, hsplit, hcost, hmin, _⟩ :=
          best_route_char jd matrix v (asg.getD idx [])
        rw [eval_cons_best jd matrix asg v rest idx total routes d seq hcap hemp hbr] at h
        obtain ⟨rts', hlen, ht, hr, hk⟩ := ih (idx + 1) (total + d) _ t r h
        have hseqmem : seq ∈ perms (asg.getD idx []) := by
          rw [hsplit]
          exact List.mem_append.mpr (Or.inr (List.mem_cons_self seq t₂))
        refine ⟨Route.mk seq d :: rts', by simp [hlen], ?_, ?_, ?_⟩
        · simp only [List.map_cons, List.sum_cons] at ht ⊢
          omega
        · rw [List.zip_cons_cons, dfold_cons]
          exact hr
        · intro k hk'
          cases k with
          | zero => exact ⟨hcap, Or.inr ⟨hemp, mem_perms.mp hseqmem, hcost, hmin⟩⟩
          | succ m =>
            have hm : m < rest.length := by simpa using hk'
            have heq : idx + (m + 1) = (idx + 1) + m := by omega
            rw [heq, getD_cons_succ, getD_cons_succ]
            exact hk m hm

theorem eval_vehicles_ex (jd : String → Job) (matrix : List (List Int))
    (asg : List (List String)) :
    ∀ (vsl : List Vehicle) (idx : Nat) (total : Int) (routes : List (String × Route)),
      (∀ k, k < vsl.length →
        is_capacity_feasible ((asg.getD (idx + k) []).map jd)
          ((vsl.getD k default).capacity) = true) →
      ∃ t r, eval_vehicles jd matrix asg vsl idx total routes = some (t, r) := by
  intro vsl
  induction vsl with
  | nil => intro idx total routes _; exact ⟨total, routes, rfl⟩
  | cons v rest ih =>
    intro idx total routes hcap
    have hcap0 : is_capacity_feasible ((asg.getD idx []).map jd) v.capacity = true :=
      hcap 0 (by simp)
    have hcaprest : ∀ k, k < rest.length →
        is_capacity_feasible ((asg.getD ((idx + 1) + k) []).map jd)
          ((rest.getD k default).capacity) = true := by
      intro k hk
      have h1 := hcap (k + 1) (by simpa using Nat.succ_lt_succ hk)
      have heq : idx + (k + 1) = (idx + 1) + k := by omega
      rw [heq, getD_cons_succ] at h1
      exact h1
    by_cases hemp : asg.getD idx [] = []
    · rw [eval_cons_empty jd matrix asg v rest idx total routes hcap0 hemp]
      exact ih (idx + 1) total _ hcaprest
    · obtain ⟨d, seq, t₁, t₂, hbr, _, _, _, _⟩ :=
        best_route_char jd matrix v (asg.getD idx [])
      rw [eval_cons_best jd matrix asg v rest idx total routes d seq hcap0 hemp hbr]
      exact ih (idx + 1) (total + d) _ hcaprest

/-! ### Duration evaluator lemmas -/

theorem headD_eq_getD {α : Type} (l : List α) (d : α) : l.headD d = l.getD 0 d := by
  cases l <;> rfl

theorem foldl_add_pair (g h : Nat → Int) :
    ∀ (L : List Nat) (a : Int),
      L.foldl (fun d i => d + g i + h i) a = a + (L.map (fun i => g i + h i)).sum := by
  intro L
  induction L with
  | nil => intro a; simp
  | cons x xs ih =>
    intro a
    simp only [List.foldl_cons, List.map_cons, List.sum_cons]
    rw [ih]
    omega

theorem getD_cons_zero {α : Type} (a : α) (l : List α) (d : α) :
    (a :: l).getD 0 d = a := rfl

theorem range_map_sum_shift (G : Nat → Int) (m : Nat) :
    ((List.range (m + 1)).map G).sum =
      G 0 + ((List.range m).map (fun i => G (i + 1))).sum := by
  have hfun : (G ∘ Nat.succ) = fun i => G (i + 1) := by
    funext i
    simp [Function.comp, Nat.succ_eq_add_one]
  rw [List.range_succ_eq_map, List.map_cons, List.sum_cons, List.map_map, hfun]

theorem crd_sum_spec (matrix : List (List Int)) :
    ∀ (locs : List Nat) (svcs : List Int) (prev : Nat),
      svcs.length = locs.length → locs ≠ [] →
      mget matrix prev (locs.getD 0 0) + svcs.getD 0 0 +
        ((List.range (locs.length - 1)).map (fun i =>
          mget matrix (locs.getD i 0) (locs.getD (i + 1) 0) +
            (if svcs.isEmpty = false ∧ i + 1 < svcs.length then svcs.getD (i + 1) 0
             else 0))).sum
        = route_duration_spec matrix prev locs svcs := by
  intro locs
  induction locs with
  | nil => intro svcs prev _ hne; exact absurd rfl hne
  | cons l0 ls ih =>
    intro svcs prev hlen _
    cases svcs with
    | nil => simp at hlen
    | cons s0 ss =>
      cases ls with
      | nil =>
        have e2 : (l0 :: ([] : List Nat)).length - 1 = 0 := rfl
        rw [getD_cons_zero, getD_cons_zero, e2]
        simp only [List.range_zero, List.map_nil, List.sum_nil]
        simp only [route_duration_spec, List.headD_cons, List.tail_cons]
      | cons l1 ls' =>
        have hssne : ss ≠ [] := by
          intro hs
          rw [hs] at hlen
          simp at hlen
        have hslen : ss.length = (l1 :: ls').length := by simpa using hlen
        have hrec := ih ss l0 hslen (by simp)
        rw [getD_cons_zero] at hrec
        have hlr : (l1 :: ls').length - 1 = ls'.length := by simp
        rw [hlr] at hrec
        have hlength : (l0 :: l1 :: ls').length - 1 = ls'.length + 1 := by simp
        rw [hlength, range_map_sum_shift]
        have hmapeq : ((List.range ls'.length).map (fun i =>
            mget matrix ((l0 :: l1 :: ls').getD (i + 1) 0)
                ((l0 :: l1 :: ls').getD (i + 1 + 1) 0) +
              (if (s0 :: ss).isEmpty = false ∧ i + 1 + 1 < (s0 :: ss).length then
                (s0 :: ss).getD (i + 1 + 1) 0 else 0))) =
            ((List.range ls'.length).map (fun i =>
              mget matrix ((l1 :: ls').getD i 0) ((l1 :: ls').getD (i + 1) 0) +
                (if ss.isEmpty = false ∧ i + 1 < ss.length then ss.getD (i + 1) 0
                 else 0))) := by
          refine List.map_congr_left ?_
          intro i _
          simp only [getD_cons_succ]
          congr 1
          have hc : ((s0 :: ss).isEmpty = false ∧ i + 1 + 1 < (s0 :: ss).length) ↔
              (ss.isEmpty = false ∧ i + 1 < ss.length) := by
            simp [List.isEmpty_eq_false.mpr hssne]
          exact if_congr hc rfl rfl
        have hG0 : mget matrix ((l0 :: l1 :: ls').getD 0 0)
              ((l0 :: l1 :: ls').getD (0 + 1) 0) +
            (if (s0 :: ss).isEmpty = false ∧ 0 + 1 < (s0 :: ss).length then
              (s0 :: ss).getD (0 + 1) 0 else 0) = mget matrix l0 l1 + ss.getD 0 0 := by
          have hcond : (s0 :: ss).isEmpty = false ∧ 0 + 1 < (s0 :: ss).length := by
            refine ⟨by simp, ?_⟩
            simp only [List.length_cons]
            have hpos : 0 < ss.length := List.length_pos.mpr hssne
            omega
          rw [if_pos hcond]
          rfl
        rw [hmapeq, hG0, getD_cons_zero, getD_cons_zero]
        rw [route_duration_spec]
        simp only [List.headD_cons, List.tail_cons]
        rw [← hrec]

theorem compute_eq_spec (start : Nat) (job_locs : List Nat)
    (matrix : List (List Int)) (services : List Int)
    (hlen : services.length = job_locs.length) :
    compute_route_duration start job_locs matrix services =
      route_duration_spec matrix start job_locs services := by
  cases job_locs with
  | nil => simp [compute_route_duration, route_duration_spec]
  | cons l0 ls =>
    have hsne : services ≠ [] := by
      intro h; rw [h] at hlen; simp at hlen
    have hcrd := crd_sum_spec matrix (l0 :: ls) services start hlen (by simp)
    have hfold := foldl_add_pair
      (fun i => mget matrix ((l0 :: ls).getD i 0) ((l0 :: ls).getD (i + 1) 0))
      (fun i => if services.isEmpty = false ∧ i + 1 < services.length then
        services.getD (i + 1) 0 else 0)
      (List.range ((l0 :: ls).length - 1))
      (mget matrix start ((l0 :: ls).getD 0 0) +
        (if services.isEmpty then 0 else services.getD 0 0))
    rw [compute_route_duration, if_neg (by simp : ¬((l0 :: ls).isEmpty = true))]
    rw [hfold, if_neg (by simp [hsne] : ¬(services.isEmpty = true))]
    omega

/-! ### Solver master lemmas -/

theorem bfs_unfold (vs : List Vehicle) (js : List Job) (matrix : List (List Int))
    (h : js ≠ []) :
    brute_force_solve vs js matrix =
      (match min_loop (fun a => eval_vehicles (job_dict js) matrix a vs 0 0 [])
          (generate_all_assignments (job_ids js) vs.length) (none, empty_routes vs) with
        | (none, _) => OutputData.mk 0 (empty_routes vs)
        | (some t, routes) => OutputData.mk t routes) := by
  rw [brute_force_solve, if_neg]
  simp [h]

theorem feasible_parts_eval (vs : List Vehicle) (js : List Job)
    (matrix : List (List Int)) (parts ords : List (List String))
    (hpo : PartsOf vs js parts) (hpf : PartsFeasible (job_dict js) vs parts)
    (hol : ords.length = vs.length)
    (hop : ∀ k, k < vs.length → (ords.getD k []).Perm (parts.getD k [])) :
    ∃ asg t r, asg ∈ generate_all_assignments (job_ids js) vs.length ∧
      eval_vehicles (job_dict js) matrix asg vs 0 0 [] = some (t, r) ∧
      t ≤ fleet_cost (job_dict js) matrix vs ords := by
  obtain ⟨hplen, hpperm⟩ := hpo
  obtain ⟨asg, hmem, hlen, hper⟩ :=
    generate_complete (job_ids js) vs.length parts hplen hpperm
  have hcap : ∀ k, k < vs.length →
      is_capacity_feasible ((asg.getD (0 + k) []).map (job_dict js))
        ((vs.getD k default).capacity) = true := by
    intro k hk
    rw [Nat.zero_add, is_capacity_feasible_perm (job_dict js) (hper k hk)]
    exact hpf k hk
  obtain ⟨t, r, heval⟩ := eval_vehicles_ex (job_dict js) matrix asg vs 0 0 [] hcap
  refine ⟨asg, t, r, hmem, heval, ?_⟩
  obtain ⟨rts, hrlen, ht, _, hk⟩ :=
    eval_vehicles_char (job_dict js) matrix asg vs 0 0 [] t r heval
  have hbound : (rts.map Route.delivery_duration).sum ≤
      fleet_cost (job_dict js) matrix vs ords := by
    rw [fleet_cost]
    apply sum_le_sum_of_getD
    · simp [hrlen, List.length_zip, hol]
    · intro k hkk
      have hk' : k < vs.length := by
        rw [List.length_map, hrlen] at hkk
        exact hkk
      have hzl : k < (vs.zip ords).length := by
        rw [List.length_zip, hol]
        simp
        omega
      rw [getD_map Route.delivery_duration rts k 0 default (by omega)]
      rw [getD_map (fun vo => route_cost (job_dict js) matrix vo.1 vo.2)
        (vs.zip ords) k 0 (default, []) hzl]
      rw [getD_zip vs ords k default [] hk' (by omega)]
      obtain ⟨_, hdisj⟩ := hk k hk'
      have hperk : (ords.getD k []).Perm (asg.getD (0 + k) []) := by
        rw [Nat.zero_add]
        exact (hop k hk').trans (hper k hk').symm
      rcases hdisj with ⟨hempk, hrtk⟩ | ⟨_, _, _, hminq⟩
      · have hok : ords.getD k [] = [] := by
          rw [hempk] at hperk
          exact List.perm_nil.mp hperk
        rw [hrtk, hok]
        simp [route_cost, perm_locs, perm_services, compute_route_duration]
      · exact hminq _ (mem_perms.mpr hperk)
  omega

theorem bfs_wins (vs : List Vehicle) (js : List Job) (matrix : List (List Int))
    (hjs : js ≠ [])
    (hex : ∃ parts, PartsOf vs js parts ∧ PartsFeasible (job_dict js) vs parts) :
    ∃ asg, ∃ rts : List Route,
      asg ∈ generate_all_assignments (job_ids js) vs.length ∧
      asg.length = vs.length ∧
      asg.flatten.Perm (job_ids js) ∧
      rts.length = vs.length ∧
      brute_force_solve vs js matrix =
        OutputData.mk ((rts.map Route.delivery_duration).sum) (dfold [] (vs.zip rts)) ∧
      (∀ k, k < vs.length →
        is_capacity_feasible ((asg.getD k []).map (job_dict js))
          ((vs.getD k default).capacity) = true ∧
        ((asg.getD k [] = [] ∧ rts.getD k default = Route.mk [] 0) ∨
         (asg.getD k [] ≠ [] ∧
           ((rts.getD k default).jobs).Perm (asg.getD k []) ∧
           (rts.getD k default).delivery_duration =
             route_cost (job_dict js) matrix (vs.getD k default)
               ((rts.getD k default).jobs) ∧
           ∀ q ∈ perms (asg.getD k []),
             (rts.getD k default).delivery_duration ≤
               route_cost (job_dict js) matrix (vs.getD k default) q))) ∧
      (∀ parts ords, PartsOf vs js parts → PartsFeasible (job_dict js) vs parts →
        ords.length = vs.length →
        (∀ k, k < vs.length → (ords.getD k []).Perm (parts.getD k [])) →
        (rts.map Route.delivery_duration).sum ≤
          fleet_cost (job_dict js) matrix vs ords) := by
  obtain ⟨parts₀, hpo₀, hpf₀⟩ := hex
  obtain ⟨asg₀, t₀, r₀, hmem₀, heval₀, _⟩ :=
    feasible_parts_eval vs js matrix parts₀ parts₀ hpo₀ hpf₀ hpo₀.1
      (fun k _ => List.Perm.refl _)
  have hle := min_loop_le (fun a => eval_vehicles (job_dict js) matrix a vs 0 0 [])
    (generate_all_assignments (job_ids js) vs.length) (none, empty_routes vs)
    asg₀ t₀ r₀ hmem₀ heval₀
  rcases min_loop_attain (fun a => eval_vehicles (job_dict js) matrix a vs 0 0 [])
      (generate_all_assignments (job_ids js) vs.length) (none, empty_routes vs) with
    heq | ⟨asgW, hmemW, tW, rW, hevalW, heqW⟩
  · rw [heq] at hle
    exact absurd hle (by simp [ole])
  · obtain ⟨rts, hrlen, ht, hr, hkprops⟩ :=
      eval_vehicles_char (job_dict js) matrix asgW vs 0 0 [] tW rW hevalW
    obtain ⟨hWlen, hWperm⟩ := generate_sound (job_ids js) vs.length asgW hmemW
    have htW : tW = (rts.map Route.delivery_duration).sum := by
      rw [ht]
      omega
    refine ⟨asgW, rts, hmemW, hWlen, hWperm, hrlen, ?_, ?_, ?_⟩
    · rw [bfs_unfold vs js matrix hjs, heqW, htW, hr]
    · intro k hk
      have := hkprops k hk
      rw [Nat.zero_add] at this
      exact this
    · intro parts ords hpo hpf hol hop
      obtain ⟨asg₁, t₁, r₁, hmem₁, heval₁, hb₁⟩ :=
        feasible_parts_eval vs js matrix parts ords hpo hpf hol hop
      have hle₁ := min_loop_le (fun a => eval_vehicles (job_dict js) matrix a vs 0 0 [])
        (generate_all_assignments (job_ids js) vs.length) (none, empty_routes vs)
        asg₁ t₁ r₁ hmem₁ heval₁
      rw [heqW] at hle₁
      have hW1 : tW ≤ t₁ := hle₁
      omega

/-! ### Output dictionary support lemmas -/

theorem dlookup_empty_routes (vs : List Vehicle) (s : String)
    (h : s ∈ vs.map Vehicle.id) :
    dlookup s (empty_routes vs) = some (Route.mk [] 0) := by
  rw [empty_routes_eq_dfold]
  have hk : s ∈ keys (dfold [] (vs.map (fun v => (v, Route.mk [] 0)))) := by
    rw [keys_dfold]
    right
    rw [List.map_map]
    simpa using h
  obtain ⟨r, h1, h2⟩ := dlookup_eq_some_of_mem_keys _ s hk
  have hv : (s, r).2 = Route.mk [] 0 := by
    refine dfold_values (vs.map (fun v => (v, Route.mk [] 0))) [] (Route.mk [] 0)
      (by simp) ?_ (s, r) h2
    intro p hp
    obtain ⟨v, _, rfl⟩ := List.mem_map.mp hp
    rfl
  simp only at hv
  rw [h1, hv]

theorem zip_pairs_ids (vs : List Vehicle) (rts : List Route)
    (h : vs.length = rts.length) :
    (vs.zip rts).map (fun p => p.1.id) = vs.map Vehicle.id := by
  have h1 : (vs.zip rts).map Prod.fst = vs := List.map_fst_zip vs rts (by omega)
  calc (vs.zip rts).map (fun p => p.1.id)
      = ((vs.zip rts).map Prod.fst).map Vehicle.id := by rw [List.map_map]; rfl
    _ = vs.map Vehicle.id := by rw [h1]

theorem dfold_zip_map (vs : List Vehicle) (rts : List Route)
    (hlen : vs.length = rts.length) (hnd : (vs.map Vehicle.id).Nodup) :
    dfold [] (vs.zip rts) = (vs.zip rts).map (fun p => (p.1.id, p.2)) := by
  have h2 : ((vs.zip rts).map (fun p => p.1.id)).Nodup := by
    rw [zip_pairs_ids vs rts hlen]
    exact hnd
  have h1 : ∀ p ∈ vs.zip rts, p.1.id ∉ keys ([] : List (String × Route)) := by
    intro p _ hc
    simp [keys] at hc
  rw [dfold_disjoint (vs.zip rts) [] h1 h2]
  simp

theorem dlookup_winner (vs : List Vehicle) (rts : List Route)
    (hlen : vs.length = rts.length) (hnd : (vs.map Vehicle.id).Nodup)
    (k : Nat) (hk : k < vs.length) :
    dlookup ((vs.getD k default).id) (dfold [] (vs.zip rts)) =
      some (rts.getD k default) := by
  rw [dfold_zip_map vs rts hlen hnd]
  have hnd' : ((vs.zip rts).map (fun p => p.1.id)).Nodup := by
    rw [zip_pairs_ids vs rts hlen]
    exact hnd
  have hkz : k < (vs.zip rts).length := by
    rw [List.length_zip]
    omega
  have h := dlookup_assoc_nodup (vs.zip rts) hnd' k hkz
  have hdp : (default : Vehicle × Route) = (default, default) := rfl
  rw [hdp, getD_zip vs rts k default default hk (by omega)] at h
  exact h

theorem empty_routes_keys (vs : List Vehicle) :
    (keys (empty_routes vs)).Nodup ∧
    ∀ s, s ∈ keys (empty_routes vs) ↔ s ∈ vs.map Vehicle.id := by
  rw [empty_routes_eq_dfold]
  constructor
  · exact keys_dfold_nodup _ [] (by simp [keys])
  · intro s
    rw [keys_dfold]
    rw [List.map_map]
    constructor
    · rintro (h | h)
      · simp [keys] at h
      · simpa using h
    · intro h
      right
      simpa using h

theorem winner_routes_keys (vs : List Vehicle) (rts : List Route)
    (hlen : rts.length = vs.length) :
    (keys (dfold [] (vs.zip rts))).Nodup ∧
    ∀ s, s ∈ keys (dfold [] (vs.zip rts)) ↔ s ∈ vs.map Vehicle.id := by
  constructor
  · exact keys_dfold_nodup _ [] (by simp [keys])
  · intro s
    rw [keys_dfold, zip_pairs_ids vs rts (by omega)]
    constructor
    · rintro (h | h)
      · simp [keys] at h
      · exact h
    · intro h
      exact Or.inr h

/-! ### Claim theorems -/

/-- C1 (code defect evidence): on an input whose single job's demand (1)
exceeds the capacity (0) of the only vehicle - so no capacity-feasible assignment
of all jobs exists - `brute_force_solve` returns total duration 0 with an
all-empty route map, byte-identical to the output of the feasible zero-job
instance; the `OutputData` type carries no infeasibility marker at all, so
the result is a feasible-looking Solution, contradicting the claim that an
explicitly infeasible Solution is returned. -/
theorem c1_infeasible_silent_zero :
    brute_force_solve [Vehicle.mk "V1" 0 (PyCapacity.int 0)] [Job.mk "J1" 1 1 0]
        [[0, 1], [1, 0]] =
      OutputData.mk 0 [("V1", Route.mk [] 0)] ∧
    brute_force_solve [Vehicle.mk "V1" 0 (PyCapacity.int 0)] []
        [[0, 1], [1, 0]] =
      OutputData.mk 0 [("V1", Route.mk [] 0)] := by
  constructor <;> decide

/-- C3 (counterexample): one vehicle at location 0 with unbounded capacity,
jobs J1 (location 1) and J2 (location 2) in that input order, and the
symmetric matrix [[0,5,5],[5,0,7],[5,7,0]]: both visiting orders cost 12
(a tie), yet the returned route is ["J2","J1"], not the first ordering in
canonical lexicographic enumeration by original job order, ["J1","J2"] -
because the solver enumerates permutations of the assigned-job list, which
is built in reverse input order. -/
theorem c3_tie_break_counterexample :
    brute_force_solve [Vehicle.mk "V1" 0 PyCapacity.unbounded]
        [Job.mk "J1" 1 0 0, Job.mk "J2" 2 0 0]
        [[0, 5, 5], [5, 0, 7], [5, 7, 0]] =
      OutputData.mk 12 [("V1", Route.mk ["J2", "J1"] 12)] ∧
    route_cost (job_dict [Job.mk "J1" 1 0 0, Job.mk "J2" 2 0 0])
        [[0, 5, 5], [5, 0, 7], [5, 7, 0]]
        (Vehicle.mk "V1" 0 PyCapacity.unbounded) ["J1", "J2"] = 12 ∧
    route_cost (job_dict [Job.mk "J1" 1 0 0, Job.mk "J2" 2 0 0])
        [[0, 5, 5], [5, 0, 7], [5, 7, 0]]
        (Vehicle.mk "V1" 0 PyCapacity.unbounded) ["J2", "J1"] = 12 := by
  refine ⟨?_, ?_, ?_⟩ <;> decide

/-- C3 (amended): for every vehicle and every non-empty assigned job list,
the route sequencer (`best_route`, the inner permutation loop of
`brute_force_solve`) returns an ordering achieving the minimum duration,
and among minimum-duration orderings it returns the first one encountered in
the `itertools.permutations` enumeration order of the assigned-job
list (which holds the jobs in reverse of original input order, not in
original input order): every permutation enumerated strictly earlier has
strictly larger duration.  The sequencer is a pure function, hence
deterministic and reproducible across runs. -/
theorem c3_route_sequencer_first (jd : String → Job) (matrix : List (List Int))
    (v : Vehicle) (ids : List String) (_hne : ids ≠ []) :
    ∃ d seq t₁ t₂,
      best_route jd matrix v ids = (some d, seq) ∧
      perms ids = t₁ ++ seq :: t₂ ∧
      seq.Perm ids ∧
      d = route_cost jd matrix v seq ∧
      (∀ q, q.Perm ids → d ≤ route_cost jd matrix v q) ∧
      (∀ p ∈ t₁, d < route_cost jd matrix v p) := by
  obtain ⟨d, seq, t₁, t₂, h1, h2, h3, h4, h5⟩ := best_route_char jd matrix v ids
  have hseq : seq.Perm ids := mem_perms.mp (by
    rw [h2]
    exact List.mem_append.mpr (Or.inr (List.mem_cons_self _ _)))
  refine ⟨d, seq, t₁, t₂, h1, h2, hseq, h3, ?_, h5⟩
  intro q hq
  exact h4 q (mem_perms.mpr hq)

/-- Witness for the amended C3 theorem at a concrete non-empty input. -/
theorem c3_witness :
    ∃ d seq t₁ t₂,
      best_route (job_dict [Job.mk "J1" 1 0 0]) [[0, 1], [1, 0]]
          (Vehicle.mk "V1" 0 PyCapacity.unbounded) ["J1"] = (some d, seq) ∧
      perms ["J1"] = t₁ ++ seq :: t₂ ∧
      seq.Perm ["J1"] ∧
      d = route_cost (job_dict [Job.mk "J1" 1 0 0]) [[0, 1], [1, 0]]
        (Vehicle.mk "V1" 0 PyCapacity.unbounded) seq ∧
      (∀ q, q.Perm ["J1"] → d ≤ route_cost (job_dict [Job.mk "J1" 1 0 0])
        [[0, 1], [1, 0]] (Vehicle.mk "V1" 0 PyCapacity.unbounded) q) ∧
      (∀ p ∈ t₁, d < route_cost (job_dict [Job.mk "J1" 1 0 0]) [[0, 1], [1, 0]]
        (Vehicle.mk "V1" 0 PyCapacity.unbounded) p) :=
  c3_route_sequencer_first (job_dict [Job.mk "J1" 1 0 0]) [[0, 1], [1, 0]]
    (Vehicle.mk "V1" 0 PyCapacity.unbounded) ["J1"] (by decide)

/-- C4: for matching-length location and service sequences (and location
indices within matrix bounds, as the claim assumes - the embedding makes
matrix access total, so the bounds hypotheses are not needed by the proof),
`compute_route_duration` equals the specification formula
travel(start -> first) + service(first) + sum over consecutive pairs of
travel + service of the second element, and returns 0 on the empty job
sequence.  It is a pure function of its arguments. -/
theorem c4_compute_route_duration (start : Nat) (job_locs : List Nat)
    (matrix : List (List Int)) (services : List Int)
    (hlen : services.length = job_locs.length)
    (_hstart : start < matrix.length)
    (_hlocs : ∀ l ∈ job_locs, l < matrix.length) :
    compute_route_duration start job_locs matrix services =
      route_duration_spec matrix start job_locs services ∧
    (job_locs = [] → compute_route_duration start job_locs matrix services = 0) := by
  refine ⟨compute_eq_spec start job_locs matrix services hlen, ?_⟩
  intro h
  subst h
  rfl

/-- Witness for C4 at a concrete input. -/
theorem c4_witness :
    compute_route_duration 0 [1, 2] [[0, 5, 7], [5, 0, 3], [7, 3, 0]] [10, 20] =
      route_duration_spec [[0, 5, 7], [5, 0, 3], [7, 3, 0]] 0 [1, 2] [10, 20] ∧
    ([1, 2] = ([] : List Nat) →
      compute_route_duration 0 [1, 2] [[0, 5, 7], [5, 0, 3], [7, 3, 0]] [10, 20] = 0) :=
  c4_compute_route_duration 0 [1, 2] [[0, 5, 7], [5, 0, 3], [7, 3, 0]] [10, 20]
    (by decide) (by decide) (by decide)

/-- C5: `is_capacity_feasible` returns true for the explicit unbounded
(`None`) capacity on every job list (including the empty one), and for an
integer capacity it returns true exactly when the sum of the jobs' delivery
demands is at most the capacity. -/
theorem c5_capacity_feasible_iff (l : List Job) :
    is_capacity_feasible l PyCapacity.unbounded = true ∧
    (∀ c : Int, is_capacity_feasible l (PyCapacity.int c) = true ↔ demand_sum l ≤ c) := by
  refine ⟨rfl, ?_⟩
  intro c
  simp [is_capacity_feasible, demand_sum]

/-- C6: with an empty job list `brute_force_solve` returns immediately
(first branch, bypassing the search) with total duration 0 and every vehicle
mapped to an empty route; the output equals the canonical all-empty-routes
value.  (`OutputData` has no explicit feasibility flag; this zero output is
the designated feasible result for the trivial instance.) -/
theorem c6_solve_empty_jobs (vs : List Vehicle) (matrix : List (List Int)) :
    brute_force_solve vs [] matrix = OutputData.mk 0 (empty_routes vs) ∧
    (brute_force_solve vs [] matrix).total_delivery_duration = 0 ∧
    ∀ v ∈ vs, dlookup v.id (brute_force_solve vs [] matrix).routes =
      some (Route.mk [] 0) := by
  have h0 : brute_force_solve vs [] matrix = OutputData.mk 0 (empty_routes vs) := rfl
  refine ⟨h0, by rw [h0], ?_⟩
  intro v hv
  rw [h0]
  exact dlookup_empty_routes vs v.id (List.mem_map_of_mem Vehicle.id hv)

/-- Witness for C6 at a concrete fleet. -/
theorem c6_witness :
    brute_force_solve [Vehicle.mk "V1" 0 PyCapacity.unbounded] [] [[0, 1], [1, 0]] =
      OutputData.mk 0 (empty_routes [Vehicle.mk "V1" 0 PyCapacity.unbounded]) ∧
    (brute_force_solve [Vehicle.mk "V1" 0 PyCapacity.unbounded] []
        [[0, 1], [1, 0]]).total_delivery_duration = 0 ∧
    ∀ v ∈ [Vehicle.mk "V1" 0 PyCapacity.unbounded],
      dlookup v.id (brute_force_solve [Vehicle.mk "V1" 0 PyCapacity.unbounded] []
        [[0, 1], [1, 0]]).routes = some (Route.mk [] 0) :=
  c6_solve_empty_jobs [Vehicle.mk "V1" 0 PyCapacity.unbounded] [[0, 1], [1, 0]]

/-- C9 (code defect evidence): the declared default of `Vehicle.capacity` in
`src/input_classes.py` is `float("inf")` - a numeric infinity sentinel, not
the explicit `None` unbounded marker - and `is_capacity_feasible` accepts any
demand against that sentinel by numeric comparison rather than through the
`capacity is None` branch.  This contradicts the claim that a capacity is
never represented as a numeric infinity sentinel. -/
theorem c9_capacity_default_sentinel :
    vehicle_capacity_default = PyCapacity.inf ∧
    vehicle_capacity_default ≠ PyCapacity.unbounded ∧
    is_capacity_feasible [Job.mk "J1" 1 1000000 0] vehicle_capacity_default = true := by
  decide

/-- C2: on any input with a non-empty job list that admits at least one
capacity-feasible partition, `brute_force_solve` returns the global optimum:
(lower bound) its total duration is at most the fleet cost of every
capacity-feasible partition under every choice of per-vehicle orderings, and
(attainment) the routes of the output realize a capacity-feasible partition, the
total equals the sum of the per-vehicle route durations, and each per-vehicle
route duration is the minimum duration over all reorderings of the jobs
assigned to that vehicle. -/
theorem c2_brute_force_optimal (vs : List Vehicle) (js : List Job)
    (matrix : List (List Int)) (hjs : js ≠ [])
    (hex : ∃ parts, PartsOf vs js parts ∧ PartsFeasible (job_dict js) vs parts) :
    (∀ parts ords, PartsOf vs js parts → PartsFeasible (job_dict js) vs parts →
      ords.length = vs.length →
      (∀ k, k < vs.length → (ords.getD k []).Perm (parts.getD k [])) →
      (brute_force_solve vs js matrix).total_delivery_duration ≤
        fleet_cost (job_dict js) matrix vs ords) ∧
    (∃ rts : List Route, rts.length = vs.length ∧
      PartsOf vs js (rts.map Route.jobs) ∧
      PartsFeasible (job_dict js) vs (rts.map Route.jobs) ∧
      brute_force_solve vs js matrix =
        OutputData.mk ((rts.map Route.delivery_duration).sum)
          (dfold [] (vs.zip rts)) ∧
      ∀ k, k < vs.length →
        (rts.getD k default).delivery_duration =
          route_cost (job_dict js) matrix (vs.getD k default)
            ((rts.getD k default).jobs) ∧
        (∀ q, q.Perm ((rts.getD k default).jobs) →
          (rts.getD k default).delivery_duration ≤
            route_cost (job_dict js) matrix (vs.getD k default) q)) := by
  obtain ⟨asg, rts, hmem, halen, haperm, hrlen, hout, hprops, hmin⟩ :=
    bfs_wins vs js matrix hjs hex
  have hjperm : ∀ k, k < vs.length →
      (((rts.map Route.jobs).getD k []).Perm (asg.getD k [])) := by
    intro k hk
    obtain ⟨_, hdisj⟩ := hprops k hk
    rw [getD_map Route.jobs rts k [] default (by omega)]
    rcases hdisj with ⟨he, hrt⟩ | ⟨_, hj, _, _⟩
    · rw [hrt, he]
    · exact hj
  constructor
  · intro parts ords hpo hpf hol hop
    rw [hout]
    exact hmin parts ords hpo hpf hol hop
  · refine ⟨rts, hrlen, ⟨by simp [hrlen], ?_⟩, ?_, hout, ?_⟩
    · have h1 : (rts.map Route.jobs).flatten.Perm asg.flatten := by
        apply flatten_perm_of_getD_perm
        · simp [hrlen, halen]
        · intro k hk
          exact hjperm k (by simpa [hrlen] using hk)
      exact h1.trans haperm
    · intro k hk
      obtain ⟨hcapk, _⟩ := hprops k hk
      rw [is_capacity_feasible_perm (job_dict js) (hjperm k hk)]
      exact hcapk
    · intro k hk
      obtain ⟨_, hdisj⟩ := hprops k hk
      rcases hdisj with ⟨he, hrt⟩ | ⟨_, hj, hdd, hminq⟩
      · refine ⟨?_, ?_⟩
        · rw [hrt]
          simp [route_cost, perm_locs, perm_services, compute_route_duration]
        · intro q hq
          rw [hrt] at hq ⊢
          have hq0 : q = [] := List.perm_nil.mp (by simpa using hq)
          subst hq0
          simp [route_cost, perm_locs, perm_services, compute_route_duration]
      · exact ⟨hdd, fun q hq => hminq q (mem_perms.mpr (hq.trans hj))⟩

/-- Witness for C2 at a concrete feasible instance. -/
theorem c2_witness :
    (∀ parts ords,
      PartsOf [Vehicle.mk "V1" 0 PyCapacity.unbounded] [Job.mk "J1" 1 0 0] parts →
      PartsFeasible (job_dict [Job.mk "J1" 1 0 0])
        [Vehicle.mk "V1" 0 PyCapacity.unbounded] parts →
      ords.length = [Vehicle.mk "V1" 0 PyCapacity.unbounded].length →
      (∀ k, k < [Vehicle.mk "V1" 0 PyCapacity.unbounded].length →
        (ords.getD k []).Perm (parts.getD k [])) →
      (brute_force_solve [Vehicle.mk "V1" 0 PyCapacity.unbounded]
          [Job.mk "J1" 1 0 0] [[0, 1], [1, 0]]).total_delivery_duration ≤
        fleet_cost (job_dict [Job.mk "J1" 1 0 0]) [[0, 1], [1, 0]]
          [Vehicle.mk "V1" 0 PyCapacity.unbounded] ords) ∧
    (∃ rts : List Route, rts.length = [Vehicle.mk "V1" 0 PyCapacity.unbounded].length ∧
      PartsOf [Vehicle.mk "V1" 0 PyCapacity.unbounded] [Job.mk "J1" 1 0 0]
        (rts.map Route.jobs) ∧
      PartsFeasible (job_dict [Job.mk "J1" 1 0 0])
        [Vehicle.mk "V1" 0 PyCapacity.unbounded] (rts.map Route.jobs) ∧
      brute_force_solve [Vehicle.mk "V1" 0 PyCapacity.unbounded]
          [Job.mk "J1" 1 0 0] [[0, 1], [1, 0]] =
        OutputData.mk ((rts.map Route.delivery_duration).sum)
          (dfold [] ([Vehicle.mk "V1" 0 PyCapacity.unbounded].zip rts)) ∧
      ∀ k, k < [Vehicle.mk "V1" 0 PyCapacity.unbounded].length →
        (rts.getD k default).delivery_duration =
          route_cost (job_dict [Job.mk "J1" 1 0 0]) [[0, 1], [1, 0]]
            ([Vehicle.mk "V1" 0 PyCapacity.unbounded].getD k default)
            ((rts.getD k default).jobs) ∧
        (∀ q, q.Perm ((rts.getD k default).jobs) →
          (rts.getD k default).delivery_duration ≤
            route_cost (job_dict [Job.mk "J1" 1 0 0]) [[0, 1], [1, 0]]
              ([Vehicle.mk "V1" 0 PyCapacity.unbounded].getD k default) q)) :=
  c2_brute_force_optimal [Vehicle.mk "V1" 0 PyCapacity.unbounded]
    [Job.mk "J1" 1 0 0] [[0, 1], [1, 0]] (by decide)
    ⟨[["J1"]], ⟨by decide, by decide⟩, by
      intro k hk
      have hk0 : k = 0 := Nat.lt_one_iff.mp (by simpa using hk)
      subst hk0
      decide⟩

/-- C7: for a feasible returned Solution (the zero-job fast path, or a
search over a non-empty job list that admits a feasible partition), every
vehicle with a bounded (integer) capacity carries a route whose summed
delivery demand is at most that capacity.  Capacities are assumed
non-negative (per the data model of the spec) and vehicle identifiers distinct (a
spec precondition), since the route dictionary is keyed by identifier. -/
theorem c7_capacity_invariant (vs : List Vehicle) (js : List Job)
    (matrix : List (List Int))
    (hvid : (vs.map Vehicle.id).Nodup)
    (hnn : ∀ v ∈ vs, ∀ c : Int, v.capacity = PyCapacity.int c → 0 ≤ c)
    (hfeas : js = [] ∨
      ∃ parts, PartsOf vs js parts ∧ PartsFeasible (job_dict js) vs parts) :
    ∀ v ∈ vs, ∀ r, dlookup v.id (brute_force_solve vs js matrix).routes = some r →
      ∀ c : Int, v.capacity = PyCapacity.int c →
        demand_sum (r.jobs.map (job_dict js)) ≤ c := by
  intro v hv r hr c hc
  by_cases hjs : js = []
  · subst hjs
    have h0 : brute_force_solve vs [] matrix = OutputData.mk 0 (empty_routes vs) := rfl
    rw [h0] at hr
    rw [dlookup_empty_routes vs v.id (List.mem_map_of_mem Vehicle.id hv)] at hr
    have hre : Route.mk [] 0 = r := Option.some.inj hr
    rw [← hre]
    have h5 := hnn v hv c hc
    simp [demand_sum]
    omega
  · rcases hfeas with h | hex
    · exact absurd h hjs
    · obtain ⟨asg, rts, hmem, halen, haperm, hrlen, hout, hprops, _⟩ :=
        bfs_wins vs js matrix hjs hex
      have hr' : dlookup v.id (dfold [] (vs.zip rts)) = some r := by
        rw [hout] at hr
        exact hr
      obtain ⟨k, hk, hvk⟩ := (mem_iff_getD (default : Vehicle)).mp hv
      have hlk := dlookup_winner vs rts (by omega) hvid k hk
      rw [hvk] at hlk
      rw [hlk] at hr'
      have hre : rts.getD k default = r := Option.some.inj hr'
      obtain ⟨hcapk, hdisj⟩ := hprops k hk
      have hjperm : (r.jobs).Perm (asg.getD k []) := by
        rw [← hre]
        rcases hdisj with ⟨he, hrt⟩ | ⟨_, hj, _, _⟩
        · rw [hrt, he]
        · exact hj
      rw [demand_sum_perm (job_dict js) hjperm]
      rw [hvk, hc] at hcapk
      simpa [is_capacity_feasible, demand_sum] using hcapk

/-- Witness for C7 at a concrete feasible instance with a bounded capacity:
the returned route for the single vehicle is J1 with demand 3, and 3 <= 5. -/
theorem c7_witness :
    demand_sum ((Route.mk ["J1"] 1).jobs.map (job_dict [Job.mk "J1" 1 3 0])) ≤ 5 :=
  c7_capacity_invariant [Vehicle.mk "V1" 0 (PyCapacity.int 5)] [Job.mk "J1" 1 3 0]
    [[0, 1], [1, 0]] (by decide)
    (by
      intro v hv c hc
      have hv1 : v = Vehicle.mk "V1" 0 (PyCapacity.int 5) := by simpa using hv
      rw [hv1] at hc
      have h5 : (5 : Int) = c := by injection hc
      omega)
    (Or.inr ⟨[["J1"]], ⟨by decide, by decide⟩, by
      intro k hk
      have hk0 : k = 0 := Nat.lt_one_iff.mp (by simpa using hk)
      subst hk0
      decide⟩)
    (Vehicle.mk "V1" 0 (PyCapacity.int 5)) (by decide) (Route.mk ["J1"] 1)
    (by decide) 5 rfl

/-- C8: for a non-empty job list admitting a feasible partition (and with
distinct vehicle identifiers, a spec precondition), the concatenation of
all returned routes' job lists is a permutation of the input job identifier
list: every job appears in exactly one vehicle's route, with no omissions
and no duplicates. -/
theorem c8_completeness_invariant (vs : List Vehicle) (js : List Job)
    (matrix : List (List Int)) (hjs : js ≠ [])
    (hvid : (vs.map Vehicle.id).Nodup)
    (hex : ∃ parts, PartsOf vs js parts ∧ PartsFeasible (job_dict js) vs parts) :
    (((brute_force_solve vs js matrix).routes.map (fun p => p.2.jobs)).flatten).Perm
      (js.map Job.id) := by
  obtain ⟨asg, rts, hmem, halen, haperm, hrlen, hout, hprops, _⟩ :=
    bfs_wins vs js matrix hjs hex
  rw [hout]
  show ((((dfold [] (vs.zip rts)).map (fun p => p.2.jobs))).flatten).Perm
    (js.map Job.id)
  rw [dfold_zip_map vs rts (by omega) hvid]
  have hflat : (((((vs.zip rts).map (fun p => (p.1.id, p.2))).map
      (fun p => p.2.jobs))).flatten).Perm asg.flatten := by
    apply flatten_perm_of_getD_perm
    · simp [List.length_zip, hrlen, halen]
    · intro k hk
      have hk' : k < vs.length := by
        simp only [List.length_map, List.length_zip, hrlen, Nat.min_self] at hk
        omega
      have hkz : k < (vs.zip rts).length := by
        rw [List.length_zip]
        omega
      rw [getD_map (fun p => p.2.jobs) ((vs.zip rts).map (fun p => (p.1.id, p.2)))
        k [] ("", default) (by simpa using hkz)]
      rw [getD_map (fun p => (p.1.id, p.2)) (vs.zip rts) k ("", default)
        (default, default) hkz]
      rw [getD_zip vs rts k default default hk' (by omega)]
      show ((rts.getD k default).jobs).Perm (asg.getD k [])
      obtain ⟨_, hdisj⟩ := hprops k hk'
      rcases hdisj with ⟨he, hrt⟩ | ⟨_, hj, _, _⟩
      · rw [hrt, he]
      · exact hj
  exact hflat.trans haperm

/-- Witness for C8 at a concrete feasible instance. -/
theorem c8_witness :
    ((((brute_force_solve [Vehicle.mk "V1" 0 PyCapacity.unbounded]
        [Job.mk "J1" 1 0 0] [[0, 1], [1, 0]]).routes.map
          (fun p => p.2.jobs)).flatten)).Perm
      ([Job.mk "J1" 1 0 0].map Job.id) :=
  c8_completeness_invariant [Vehicle.mk "V1" 0 PyCapacity.unbounded]
    [Job.mk "J1" 1 0 0] [[0, 1], [1, 0]] (by decide) (by decide)
    ⟨[["J1"]], ⟨by decide, by decide⟩, by
      intro k hk
      have hk0 : k = 0 := Nat.lt_one_iff.mp (by simpa using hk)
      subst hk0
      decide⟩

/-- C10: for every input, in all three outcomes (zero jobs, a winning
assignment found, no feasible assignment found), the keys of the returned
routes dictionary are exactly the input vehicles' identifiers - each
identifier appears exactly once (the key list has no duplicates) and no
other key appears. -/
theorem c10_routes_keys (vs : List Vehicle) (js : List Job)
    (matrix : List (List Int)) :
    ((brute_force_solve vs js matrix).routes.map Prod.fst).Nodup ∧
    ∀ s, s ∈ (brute_force_solve vs js matrix).routes.map Prod.fst ↔
      s ∈ vs.map Vehicle.id := by
  by_cases hjs : js = []
  · subst hjs
    have h0 : brute_force_solve vs [] matrix = OutputData.mk 0 (empty_routes vs) := rfl
    rw [h0]
    exact empty_routes_keys vs
  · rcases min_loop_attain (fun a => eval_vehicles (job_dict js) matrix a vs 0 0 [])
        (generate_all_assignments (job_ids js) vs.length) (none, empty_routes vs) with
      heq | ⟨asgW, hmemW, tW, rW, hevalW, heqW⟩
    · rw [bfs_unfold vs js matrix hjs, heq]
      exact empty_routes_keys vs
    · rw [bfs_unfold vs js matrix hjs, heqW]
      obtain ⟨rts, hrlen, _, hr, _⟩ :=
        eval_vehicles_char (job_dict js) matrix asgW vs 0 0 [] tW rW hevalW
      rw [hr]
      exact winner_routes_keys vs rts hrlen

end DRP
